import Mathlib

/-! Shallow embedding of the structured search-query builder in
`query/query.go` (package `query` of the repository), together with proofs
about its construction, normalization, rendering and validity logic. -/

/-- The Query tree. Go's unexported implementations of the `Query`
interface: `solo`, `quoted`, `nsolo`, `orQuery`, `andQuery`, `notQuery`.
A Go nil slice is modelled as the empty list: inside the package an
`orQuery`/`andQuery` slice is nil exactly when it is empty, since
`newOrQuery`/`newAndQuery` build their slices with `collapse`, which
returns nil for an empty input. -/
inductive Query where
  | solo : String → Query
  | quoted : String → String → Query
  | nsolo : String → Query
  | orQ : List Query → Query
  | andQ : List Query → Query
  | notQ : Query → Query

mutual
/-- Go `Valid` of the query types: `solo`/`quoted` are true, `nsolo` is
false, `orQuery`/`andQuery` are `len(q) != 0 && isStandalone(q)`, and
`notQuery` delegates to its sub-query. -/
def Query.valid : Query → Bool
  | .solo _ => true
  | .quoted _ _ => true
  | .nsolo _ => false
  | .orQ qs => !qs.isEmpty && isStandalone qs
  | .andQ qs => !qs.isEmpty && isStandalone qs
  | .notQ sub => Query.valid sub

/-- Go `isStandalone`: reports whether some element is Valid. -/
def isStandalone : List Query → Bool
  | [] => false
  | q :: qs => Query.valid q || isStandalone qs
end

/-- Go `isCompound`. -/
def isCompound : Query → Bool
  | .andQ t => t.length > 1
  | .orQ t => t.length > 1
  | .notQ sub => isCompound sub
  | _ => false

/-- Go `collapse(qs, same)`: splice in `same(q)` when it is non-nil,
otherwise keep `q` itself. -/
def collapse (same : Query → List Query) : List Query → List Query
  | [] => []
  | q :: rest => (match same q with | [] => [q] | vs => vs) ++ collapse same rest

/-- The `same` function `newOrQuery` passes to `collapse`:
`vs, _ := q.(orQuery)`. -/
def sameOr : Query → List Query
  | .orQ vs => vs
  | _ => []

/-- The `same` function `newAndQuery` passes to `collapse`. -/
def sameAnd : Query → List Query
  | .andQ vs => vs
  | _ => []

/-- Go `newOrQuery`. -/
def newOrQuery : List Query → Query
  | [q] => q
  | qs => .orQ (collapse sameOr qs)

/-- Go `newAndQuery`. -/
def newAndQuery : List Query → Query
  | [q] => q
  | qs => .andQ (collapse sameAnd qs)

/-- Go `newNotQuery`. -/
def newNotQuery : Query → Query
  | .notQ sub => sub
  | q => .notQ q

/-- Go `negateAll`. -/
def negateAll (qs : List Query) : List Query := qs.map newNotQuery

/-- Go `unicode.IsSpace`: the Unicode White_Space code points. -/
def isGoSpace (c : Char) : Bool :=
  c = ' ' || c = '\t' || c = '\n' || c = '\u000b' || c = '\u000c' || c = '\r' ||
  c = '\u0085' || c = ' ' || c = ' ' ||
  (' ' ≤ c && c ≤ ' ') || c = ' ' || c = ' ' ||
  c = ' ' || c = ' ' || c = '　'

/-- Go `strings.TrimSpace`: drop leading and trailing white space. -/
def trimSpace (s : String) : String :=
  String.mk (((s.toList.dropWhile isGoSpace).reverse.dropWhile isGoSpace).reverse)

/-- Go `newWord`: trim, then quote iff the trimmed text contains a space
or tab (`strings.ContainsAny(trim, " \t")`); the quoted form carries an
empty tag. -/
def newWord (s : String) : Query :=
  let t := trimSpace s
  if t.toList.any (fun c => c = ' ' || c = '\t') then .quoted "" t else .solo t

/-- Go `words`. -/
def words (ss : List String) : List Query := ss.map newWord

namespace Builder

/-- Go `Builder.Word`. -/
def Word (s : String) : Query := newWord s

/-- Go `Builder.All`: `And(Word(s) ...)`. -/
def All (ss : List String) : Query := newAndQuery (words ss)

/-- Go `Builder.Some`: `Or(Word(s) ...)`. -/
def Some (ss : List String) : Query := newOrQuery (words ss)

/-- Go `Builder.And`. -/
def And (qs : List Query) : Query := newAndQuery qs

/-- Go `Builder.Or`. -/
def Or (qs : List Query) : Query := newOrQuery qs

/-- Go `Builder.Not`. -/
def Not (q : Query) : Query := newNotQuery q

/-- Go `Builder.IsRetweet`. -/
def IsRetweet : Query := .nsolo "is:retweet"

/-- Go `Builder.IsVerified`. -/
def IsVerified : Query := .nsolo "is:verified"

/-- Go `Builder.HasMedia`. -/
def HasMedia : Query := .nsolo "has:media"

/-- Go `Builder.HasImages`. -/
def HasImages : Query := .nsolo "has:images"

/-- Go `Builder.HasMentions`. -/
def HasMentions : Query := .nsolo "has:mentions"

end Builder

/-- A leaf query: `solo`, `quoted` or `nsolo`. -/
def isLeaf : Query → Bool
  | .solo _ => true
  | .quoted _ _ => true
  | .nsolo _ => true
  | _ => false

mutual
/-- No `notQ` node directly wraps another `notQ` node anywhere in the tree. -/
def noDoubleNeg : Query → Bool
  | .notQ (.notQ _) => false
  | .notQ sub => noDoubleNeg sub
  | .orQ qs => noDoubleNegList qs
  | .andQ qs => noDoubleNegList qs
  | .solo _ => true
  | .quoted _ _ => true
  | .nsolo _ => true

/-- List form of `noDoubleNeg`. -/
def noDoubleNegList : List Query → Bool
  | [] => true
  | q :: qs => noDoubleNeg q && noDoubleNegList qs
end

mutual
/-- Termination measure for `Query.string`: leaves weigh 1, a list node
weighs 1 plus its children, a negation doubles its sub-query's weight. -/
def W : Query → Nat
  | .solo _ => 1
  | .quoted _ _ => 1
  | .nsolo _ => 1
  | .orQ qs => 1 + WList qs
  | .andQ qs => 1 + WList qs
  | .notQ sub => 2 * W sub

/-- List form of the measure `W`. -/
def WList : List Query → Nat
  | [] => 0
  | q :: qs => W q + WList qs
end

theorem W_pos : (q : Query) → 0 < W q
  | .solo _ => by simp [W]
  | .quoted _ _ => by simp [W]
  | .nsolo _ => by simp [W]
  | .orQ _ => by simp [W]
  | .andQ _ => by simp [W]
  | .notQ s => by have := W_pos s; simp [W]; omega

theorem WList_append : (xs ys : List Query) → WList (xs ++ ys) = WList xs + WList ys
  | [], ys => by simp [WList]
  | x :: xs, ys => by simp [WList, WList_append xs ys]; omega

theorem sameOr_splice_le (q : Query) :
    WList (match sameOr q with | [] => [q] | vs => vs) ≤ W q := by
  cases q with
  | orQ vs =>
    cases vs with
    | nil => simp [sameOr, WList, W]
    | cons v vt => simp [sameOr, WList, W]
  | solo s => simp [sameOr, WList]
  | quoted t a => simp [sameOr, WList]
  | nsolo s => simp [sameOr, WList]
  | andQ vs => simp [sameOr, WList]
  | notQ s => simp [sameOr, WList]

theorem sameAnd_splice_le (q : Query) :
    WList (match sameAnd q with | [] => [q] | vs => vs) ≤ W q := by
  cases q with
  | andQ vs =>
    cases vs with
    | nil => simp [sameAnd, WList, W]
    | cons v vt => simp [sameAnd, WList, W]
  | solo s => simp [sameAnd, WList]
  | quoted t a => simp [sameAnd, WList]
  | nsolo s => simp [sameAnd, WList]
  | orQ vs => simp [sameAnd, WList]
  | notQ s => simp [sameAnd, WList]

theorem WList_collapse_le (same : Query → List Query)
    (h : ∀ q, WList (match same q with | [] => [q] | vs => vs) ≤ W q) :
    (qs : List Query) → WList (collapse same qs) ≤ WList qs
  | [] => by simp [collapse, WList]
  | q :: rest => by
    have h1 := h q
    have h2 := WList_collapse_le same h rest
    simp only [collapse, WList_append, WList]
    omega

theorem W_newNotQuery_le (q : Query) : W (newNotQuery q) ≤ 2 * W q := by
  cases q with
  | notQ s => simp [newNotQuery, W]; omega
  | solo s => simp [newNotQuery, W]
  | quoted t a => simp [newNotQuery, W]
  | nsolo s => simp [newNotQuery, W]
  | orQ qs => simp [newNotQuery, W]
  | andQ qs => simp [newNotQuery, W]

theorem WList_negateAll_le : (qs : List Query) → WList (negateAll qs) ≤ 2 * WList qs
  | [] => by simp [negateAll, WList]
  | q :: qs => by
    have h1 := W_newNotQuery_le q
    have h2 := WList_negateAll_le qs
    simp only [negateAll, List.map] at h2 ⊢
    simp only [WList] at *
    omega

theorem W_newOrQuery_le (qs : List Query) : W (newOrQuery qs) ≤ 1 + WList qs := by
  match qs with
  | [q] => simp [newOrQuery, WList, W]
  | [] => simp [newOrQuery, collapse, W, WList]
  | a :: b :: t =>
    have h := WList_collapse_le sameOr sameOr_splice_le (a :: b :: t)
    simp only [newOrQuery, W]
    omega

theorem W_newAndQuery_le (qs : List Query) : W (newAndQuery qs) ≤ 1 + WList qs := by
  match qs with
  | [q] => simp [newAndQuery, WList, W]
  | [] => simp [newAndQuery, collapse, W, WList]
  | a :: b :: t =>
    have h := WList_collapse_le sameAnd sameAnd_splice_le (a :: b :: t)
    simp only [newAndQuery, W]
    omega

theorem W_notAnd_lt (ts : List Query) :
    W (newOrQuery (negateAll ts)) < W (Query.notQ (Query.andQ ts)) := by
  have h1 := W_newOrQuery_le (negateAll ts)
  have h2 := WList_negateAll_le ts
  simp only [W]
  omega

theorem W_notOr_lt (ts : List Query) :
    W (newAndQuery (negateAll ts)) < W (Query.notQ (Query.orQ ts)) := by
  have h1 := W_newAndQuery_le (negateAll ts)
  have h2 := WList_negateAll_le ts
  simp only [W]
  omega

theorem W_mem_le {q : Query} : {qs : List Query} → q ∈ qs → W q ≤ WList qs
  | _ :: rest, h => by
    have hp := W_pos q
    rcases List.mem_cons.mp h with h1 | h2
    · subst h1; simp only [WList]; omega
    · have := W_mem_le h2
      simp only [WList]; omega

mutual
/-- Go `String()` of the query types. An `orQuery`/`andQuery` joins its
compiled child strings with `" OR "`/`" "`; a `notQuery` over a
combinator applies De Morgan at render time, building the dual
combinator over the negated children and rendering that; a `notQuery`
over anything else renders as `-` plus the sub-query's render. -/
def Query.string : Query → String
  | .solo s => s
  | .quoted tag arg => tag ++ "\"" ++ arg ++ "\""
  | .nsolo s => s
  | .orQ qs => " OR ".intercalate (compile qs)
  | .andQ qs => " ".intercalate (compile qs)
  | .notQ (.andQ ts) => Query.string (newOrQuery (negateAll ts))
  | .notQ (.orQ ts) => Query.string (newAndQuery (negateAll ts))
  | .notQ sub => "-" ++ Query.string sub
termination_by q => 3 * W q
decreasing_by
  · simp only [W]; omega
  · simp only [W]; omega
  · have := W_notAnd_lt ts; omega
  · have := W_notOr_lt ts; omega
  · have := W_pos sub; simp only [W]; omega

/-- Go `compile`: each element's string, parenthesized when compound. -/
def compile : List Query → List String
  | [] => []
  | q :: qs =>
    (if isCompound q then "(" ++ Query.string q ++ ")" else Query.string q) :: compile qs
termination_by qs => 3 * WList qs + 1
decreasing_by
  all_goals (have hq := W_pos q; simp only [WList]; omega)
end

/-- Fuel-indexed evaluator for `Query.string`, used to compute concrete
renders inside the kernel; `stringF_eq` shows it agrees with
`Query.string` whenever the fuel is at least the measure `W`. -/
def stringF : Nat → Query → String
  | 0, _ => ""
  | n + 1, q =>
    match q with
    | .solo s => s
    | .quoted tag arg => tag ++ "\"" ++ arg ++ "\""
    | .nsolo s => s
    | .orQ qs => " OR ".intercalate (qs.map fun c =>
        if isCompound c then "(" ++ stringF n c ++ ")" else stringF n c)
    | .andQ qs => " ".intercalate (qs.map fun c =>
        if isCompound c then "(" ++ stringF n c ++ ")" else stringF n c)
    | .notQ (.andQ ts) => stringF n (newOrQuery (negateAll ts))
    | .notQ (.orQ ts) => stringF n (newAndQuery (negateAll ts))
    | .notQ sub => "-" ++ stringF n sub

theorem compile_eq_map : (qs : List Query) →
    compile qs = qs.map fun c =>
      if isCompound c then "(" ++ Query.string c ++ ")" else Query.string c
  | [] => by simp [compile]
  | q :: qs => by simp only [compile, List.map, compile_eq_map qs]

theorem map_congr_mem {α β : Type} {f g : α → β} :
    (l : List α) → (∀ a ∈ l, f a = g a) → l.map f = l.map g
  | [], _ => rfl
  | a :: l, h => by
    simp only [List.map, h a (List.mem_cons_self a l),
      map_congr_mem l (fun x hx => h x (List.mem_cons_of_mem a hx))]

theorem stringF_eq : (n : Nat) → (q : Query) → W q ≤ n → stringF n q = Query.string q
  | 0, q, h => by have := W_pos q; omega
  | n + 1, q, h => by
    cases q with
    | solo s => simp [stringF, Query.string]
    | quoted tag arg => simp [stringF, Query.string]
    | nsolo s => simp [stringF, Query.string]
    | orQ qs =>
      simp only [stringF, Query.string, compile_eq_map]
      congr 1
      refine map_congr_mem qs fun c hc => ?_
      have h1 : W c ≤ n := by
        have h2 := W_mem_le hc
        simp only [W] at h
        omega
      rw [stringF_eq n c h1]
    | andQ qs =>
      simp only [stringF, Query.string, compile_eq_map]
      congr 1
      refine map_congr_mem qs fun c hc => ?_
      have h1 : W c ≤ n := by
        have h2 := W_mem_le hc
        simp only [W] at h
        omega
      rw [stringF_eq n c h1]
    | notQ sub =>
      cases sub with
      | andQ ts =>
        have h1 : W (newOrQuery (negateAll ts)) ≤ n := by
          have := W_notAnd_lt ts; omega
        simp only [stringF, Query.string, stringF_eq n _ h1]
      | orQ ts =>
        have h1 : W (newAndQuery (negateAll ts)) ≤ n := by
          have := W_notOr_lt ts; omega
        simp only [stringF, Query.string, stringF_eq n _ h1]
      | solo s =>
        have h1 : W (Query.solo s) ≤ n := by simp only [W] at h ⊢; omega
        simp only [stringF, Query.string, stringF_eq n _ h1]
      | quoted t a =>
        have h1 : W (Query.quoted t a) ≤ n := by simp only [W] at h ⊢; omega
        simp only [stringF, Query.string, stringF_eq n _ h1]
      | nsolo s =>
        have h1 : W (Query.nsolo s) ≤ n := by simp only [W] at h ⊢; omega
        simp only [stringF, Query.string, stringF_eq n _ h1]
      | notQ s =>
        have h1 : W (Query.notQ s) ≤ n := by
          have := W_pos s; simp only [W] at h ⊢; omega
        simp only [stringF, Query.string, stringF_eq n _ h1]

/-- Evaluation rule for `Query.string` through the fuel evaluator. -/
theorem string_eval (q : Query) : Query.string q = stringF (W q) q :=
  (stringF_eq (W q) q (Nat.le_refl _)).symm

theorem string_solo (s : String) : (Query.solo s).string = s := by
  simp [Query.string]

theorem string_quoted (t a : String) :
    (Query.quoted t a).string = t ++ "\"" ++ a ++ "\"" := by
  simp [Query.string]

theorem string_orQ (qs : List Query) :
    (Query.orQ qs).string = " OR ".intercalate (compile qs) := by
  simp [Query.string]

theorem string_andQ (qs : List Query) :
    (Query.andQ qs).string = " ".intercalate (compile qs) := by
  simp [Query.string]

theorem string_notAnd (ts : List Query) :
    (Query.notQ (Query.andQ ts)).string = (newOrQuery (negateAll ts)).string := by
  simp [Query.string]

theorem string_notOr (ts : List Query) :
    (Query.notQ (Query.orQ ts)).string = (newAndQuery (negateAll ts)).string := by
  simp [Query.string]

theorem isStandalone_iff : (qs : List Query) →
    (isStandalone qs = true ↔ ∃ c ∈ qs, c.valid = true)
  | [] => by simp [isStandalone]
  | q :: qs => by
    simp [isStandalone, isStandalone_iff qs]

theorem valid_andQ_iff (qs : List Query) :
    (Query.andQ qs).valid = true ↔ qs ≠ [] ∧ ∃ c ∈ qs, c.valid = true := by
  simp [Query.valid, isStandalone_iff]

theorem valid_orQ_iff (qs : List Query) :
    (Query.orQ qs).valid = true ↔ qs ≠ [] ∧ ∃ c ∈ qs, c.valid = true := by
  simp [Query.valid, isStandalone_iff]

theorem collapse_append (same : Query → List Query) :
    (xs ys : List Query) →
      collapse same (xs ++ ys) = collapse same xs ++ collapse same ys
  | [], ys => by simp [collapse]
  | x :: xs, ys => by
    simp only [List.cons_append, collapse, List.append_assoc]
    congr 1
    exact collapse_append same xs ys

theorem splice_ne_nil (same : Query → List Query) (q : Query) :
    (match same q with | [] => [q] | vs => vs) ≠ [] := by
  cases h : same q with
  | nil => simp
  | cons a l => simp

theorem collapse_ne_nil (same : Query → List Query) :
    (qs : List Query) → qs ≠ [] → collapse same qs ≠ []
  | q :: rest, _ => by
    have h := splice_ne_nil same q
    simp only [collapse]
    intro hc
    rcases List.append_eq_nil.mp hc with ⟨h1, _⟩
    exact h h1

theorem collapse_sameAnd_single {l : List Query} (h : l ≠ []) :
    collapse sameAnd [Query.andQ l] = l := by
  cases l with
  | nil => exact absurd rfl h
  | cons x t => simp [collapse, sameAnd]

theorem collapse_sameOr_single {l : List Query} (h : l ≠ []) :
    collapse sameOr [Query.orQ l] = l := by
  cases l with
  | nil => exact absurd rfl h
  | cons x t => simp [collapse, sameOr]

theorem empty_str_append (s : String) : "" ++ s = s := rfl

theorem and_flatten_assoc (a b c : Query) :
    Builder.And [Builder.And [a, b], c] = Builder.And [a, b, c] := by
  show newAndQuery [newAndQuery [a, b], c] = newAndQuery [a, b, c]
  have hl : collapse sameAnd [a, b] ≠ [] := collapse_ne_nil sameAnd _ (by simp)
  rw [show newAndQuery [a, b] = Query.andQ (collapse sameAnd [a, b]) from rfl]
  rw [show newAndQuery [Query.andQ (collapse sameAnd [a, b]), c]
      = Query.andQ (collapse sameAnd [Query.andQ (collapse sameAnd [a, b]), c]) from rfl]
  rw [show newAndQuery [a, b, c] = Query.andQ (collapse sameAnd [a, b, c]) from rfl]
  congr 1
  rw [show ([Query.andQ (collapse sameAnd [a, b]), c] : List Query)
      = [Query.andQ (collapse sameAnd [a, b])] ++ [c] from rfl, collapse_append]
  rw [show ([a, b, c] : List Query) = [a, b] ++ [c] from rfl, collapse_append]
  congr 1
  exact collapse_sameAnd_single hl

theorem or_flatten_assoc (a b c : Query) :
    Builder.Or [Builder.Or [a, b], c] = Builder.Or [a, b, c] := by
  show newOrQuery [newOrQuery [a, b], c] = newOrQuery [a, b, c]
  have hl : collapse sameOr [a, b] ≠ [] := collapse_ne_nil sameOr _ (by simp)
  rw [show newOrQuery [a, b] = Query.orQ (collapse sameOr [a, b]) from rfl]
  rw [show newOrQuery [Query.orQ (collapse sameOr [a, b]), c]
      = Query.orQ (collapse sameOr [Query.orQ (collapse sameOr [a, b]), c]) from rfl]
  rw [show newOrQuery [a, b, c] = Query.orQ (collapse sameOr [a, b, c]) from rfl]
  congr 1
  rw [show ([Query.orQ (collapse sameOr [a, b]), c] : List Query)
      = [Query.orQ (collapse sameOr [a, b])] ++ [c] from rfl, collapse_append]
  rw [show ([a, b, c] : List Query) = [a, b] ++ [c] from rfl, collapse_append]
  congr 1
  exact collapse_sameOr_single hl

theorem noDoubleNegList_append : (xs ys : List Query) →
    noDoubleNegList (xs ++ ys) = (noDoubleNegList xs && noDoubleNegList ys)
  | [], ys => by simp [noDoubleNegList]
  | x :: xs, ys => by
    simp only [List.cons_append, noDoubleNegList, Bool.and_assoc]
    congr 1
    exact noDoubleNegList_append xs ys

theorem noDoubleNegList_splice_sameAnd (q : Query) (h : noDoubleNeg q = true) :
    noDoubleNegList (match sameAnd q with | [] => [q] | vs => vs) = true := by
  cases q with
  | andQ vs =>
    cases vs with
    | nil => simp [sameAnd, noDoubleNegList, noDoubleNeg]
    | cons x t =>
      simp only [sameAnd]
      simpa [noDoubleNeg] using h
  | orQ vs => simpa [sameAnd, noDoubleNegList] using h
  | solo s => simpa [sameAnd, noDoubleNegList] using h
  | quoted t a => simpa [sameAnd, noDoubleNegList] using h
  | nsolo s => simpa [sameAnd, noDoubleNegList] using h
  | notQ s => simpa [sameAnd, noDoubleNegList] using h

theorem noDoubleNegList_splice_sameOr (q : Query) (h : noDoubleNeg q = true) :
    noDoubleNegList (match sameOr q with | [] => [q] | vs => vs) = true := by
  cases q with
  | orQ vs =>
    cases vs with
    | nil => simp [sameOr, noDoubleNegList, noDoubleNeg]
    | cons x t =>
      simp only [sameOr]
      simpa [noDoubleNeg] using h
  | andQ vs => simpa [sameOr, noDoubleNegList] using h
  | solo s => simpa [sameOr, noDoubleNegList] using h
  | quoted t a => simpa [sameOr, noDoubleNegList] using h
  | nsolo s => simpa [sameOr, noDoubleNegList] using h
  | notQ s => simpa [sameOr, noDoubleNegList] using h

theorem noDoubleNegList_collapse (same : Query → List Query)
    (hsp : ∀ q, noDoubleNeg q = true →
      noDoubleNegList (match same q with | [] => [q] | vs => vs) = true) :
    (qs : List Query) → noDoubleNegList qs = true →
      noDoubleNegList (collapse same qs) = true
  | [], _ => by simp [collapse, noDoubleNegList]
  | q :: rest, h => by
    simp only [noDoubleNegList, Bool.and_eq_true] at h
    have h1 := hsp q h.1
    have h2 := noDoubleNegList_collapse same hsp rest h.2
    simp [collapse, noDoubleNegList_append, h1, h2]

theorem noDoubleNeg_newAndQuery (qs : List Query) (h : noDoubleNegList qs = true) :
    noDoubleNeg (newAndQuery qs) = true := by
  match qs with
  | [q] =>
    simp only [noDoubleNegList, Bool.and_eq_true] at h
    simpa [newAndQuery] using h.1
  | [] => simp [newAndQuery, collapse, noDoubleNeg, noDoubleNegList]
  | a :: b :: t =>
    show noDoubleNeg (Query.andQ (collapse sameAnd (a :: b :: t))) = true
    simp only [noDoubleNeg]
    exact noDoubleNegList_collapse sameAnd noDoubleNegList_splice_sameAnd _ h

theorem noDoubleNeg_newOrQuery (qs : List Query) (h : noDoubleNegList qs = true) :
    noDoubleNeg (newOrQuery qs) = true := by
  match qs with
  | [q] =>
    simp only [noDoubleNegList, Bool.and_eq_true] at h
    simpa [newOrQuery] using h.1
  | [] => simp [newOrQuery, collapse, noDoubleNeg, noDoubleNegList]
  | a :: b :: t =>
    show noDoubleNeg (Query.orQ (collapse sameOr (a :: b :: t))) = true
    simp only [noDoubleNeg]
    exact noDoubleNegList_collapse sameOr noDoubleNegList_splice_sameOr _ h

theorem noDoubleNeg_newNotQuery (q : Query) (h : noDoubleNeg q = true) :
    noDoubleNeg (newNotQuery q) = true := by
  cases q with
  | notQ s => cases s <;> simp_all [newNotQuery, noDoubleNeg]
  | solo s => simp [newNotQuery, noDoubleNeg]
  | quoted t a => simp [newNotQuery, noDoubleNeg]
  | nsolo s => simp [newNotQuery, noDoubleNeg]
  | orQ vs => simpa [newNotQuery, noDoubleNeg] using h
  | andQ vs => simpa [newNotQuery, noDoubleNeg] using h

/-- C1: a Conjunction or Disjunction node is Valid iff it is non-empty and
at least one child is Valid; a conjunction of a filter and a negated filter
is invalid, while a single standalone child suffices regardless of how many
filter-only siblings it has. -/
theorem C1_valid_iff :
    (∀ qs : List Query,
      ((Query.andQ qs).valid = true ↔ qs ≠ [] ∧ ∃ c ∈ qs, c.valid = true)) ∧
    (∀ qs : List Query,
      ((Query.orQ qs).valid = true ↔ qs ≠ [] ∧ ∃ c ∈ qs, c.valid = true)) ∧
    (Builder.And [Builder.IsVerified, Builder.Not Builder.HasMedia]).valid = false ∧
    (Builder.And [Builder.Word "cat", Builder.IsVerified, Builder.HasMedia]).valid = true :=
  ⟨valid_andQ_iff, valid_orQ_iff, by decide, by decide⟩

/-- C2 counterexample: `Not` of a Conjunction is, as a tree, a Negation
node that directly wraps the Conjunction — not the Disjunction of the
negated children, contrary to the claim. -/
theorem C2_counterexample :
    Builder.Not (Builder.All ["cat", "dog"])
      = Query.notQ (Query.andQ [Query.solo "cat", Query.solo "dog"]) ∧
    Builder.Not (Builder.All ["cat", "dog"])
      ≠ Builder.Or [Builder.Not (Builder.Word "cat"), Builder.Not (Builder.Word "dog")] :=
  ⟨rfl, fun h => Query.noConfusion h⟩

/-- C2 amended: the De Morgan rewrite happens at render time inside
`notQuery.String`, not at construction: `Not` of a Conjunction or
Disjunction is a Negation node wrapping it unchanged, and its render
equals the render of the dual combinator over the negated children. -/
theorem C2_demorgan_render_time :
    (∀ ts : List Query, Builder.Not (Query.andQ ts) = Query.notQ (Query.andQ ts)) ∧
    (∀ ts : List Query, Builder.Not (Query.orQ ts) = Query.notQ (Query.orQ ts)) ∧
    (∀ ts : List Query, (Builder.Not (Query.andQ ts)).string
        = (Builder.Or (ts.map Builder.Not)).string) ∧
    (∀ ts : List Query, (Builder.Not (Query.orQ ts)).string
        = (Builder.And (ts.map Builder.Not)).string) :=
  ⟨fun _ => rfl, fun _ => rfl, fun ts => string_notAnd ts, fun ts => string_notOr ts⟩

/-- C3: a Conjunction renders as the child renders joined by a single
space and a Disjunction joined by " OR ", each child parenthesized iff it
is compound; the reference example renders and validates as stated. -/
theorem C3_render_join :
    (∀ qs : List Query, (Query.andQ qs).string = " ".intercalate (qs.map fun c =>
        if isCompound c then "(" ++ c.string ++ ")" else c.string)) ∧
    (∀ qs : List Query, (Query.orQ qs).string = " OR ".intercalate (qs.map fun c =>
        if isCompound c then "(" ++ c.string ++ ")" else c.string)) ∧
    (Builder.And [Builder.Or [Builder.All ["red", "green", "blue"],
        Builder.Some ["black", "white"]], Builder.HasImages,
        Builder.Not Builder.IsRetweet]).string
      = "((red green blue) OR black OR white) has:images -is:retweet" ∧
    (Builder.And [Builder.Or [Builder.All ["red", "green", "blue"],
        Builder.Some ["black", "white"]], Builder.HasImages,
        Builder.Not Builder.IsRetweet]).valid = true :=
  ⟨fun qs => by rw [string_andQ, compile_eq_map],
   fun qs => by rw [string_orQ, compile_eq_map],
   by rw [string_eval]; rfl, by decide⟩

/-- C4: rendering a negated combinator applies De Morgan to the rendered
text, both on the concrete examples and in general. -/
theorem C4_not_render_demorgan :
    (Builder.Not (Builder.All ["cat", "dog"])).string = "-cat OR -dog" ∧
    (Builder.Not (Builder.Some ["cat", "dog"])).string = "-cat -dog" ∧
    (∀ ts : List Query, (Builder.Not (Query.andQ ts)).string
        = (Builder.Or (negateAll ts)).string) ∧
    (∀ ts : List Query, (Builder.Not (Query.orQ ts)).string
        = (Builder.And (negateAll ts)).string) :=
  ⟨by rw [string_eval]; rfl, by rw [string_eval]; rfl,
   fun ts => string_notAnd ts, fun ts => string_notOr ts⟩

/-- C5: flattening makes combinator construction associative at the
render level (here even at the tree level). -/
theorem C5_flatten_assoc : ∀ a b c : Query,
    (Builder.And [Builder.And [a, b], c]).string = (Builder.And [a, b, c]).string ∧
    (Builder.Or [Builder.Or [a, b], c]).string = (Builder.Or [a, b, c]).string :=
  fun a b c => ⟨by rw [and_flatten_assoc], by rw [or_flatten_assoc]⟩

/-- C6: double negation is eliminated exactly: `Not(Not(leaf))` renders
identically to the leaf; `Not` of a Negation returns the wrapped
sub-query directly; and the combinator constructors never produce a
Negation directly wrapping another Negation. -/
theorem C6_double_negation :
    (∀ q : Query, isLeaf q = true →
        (Builder.Not (Builder.Not q)).string = q.string) ∧
    (∀ q : Query, Builder.Not (Query.notQ q) = q) ∧
    (∀ q : Query, noDoubleNeg q = true → noDoubleNeg (Builder.Not q) = true) ∧
    (∀ qs : List Query, noDoubleNegList qs = true →
        noDoubleNeg (Builder.And qs) = true) ∧
    (∀ qs : List Query, noDoubleNegList qs = true →
        noDoubleNeg (Builder.Or qs) = true) := by
  refine ⟨?_, fun _ => rfl, noDoubleNeg_newNotQuery, noDoubleNeg_newAndQuery,
    noDoubleNeg_newOrQuery⟩
  intro q h
  cases q with
  | solo s => rfl
  | quoted t a => rfl
  | nsolo s => rfl
  | orQ qs => simp [isLeaf] at h
  | andQ qs => simp [isLeaf] at h
  | notQ s => simp [isLeaf] at h

/-- C6 witness: the theorem applied to concrete inputs. -/
theorem C6_witness :
    (Builder.Not (Builder.Not (Builder.Word "cat"))).string
        = (Builder.Word "cat").string ∧
    noDoubleNeg (Builder.Not (Builder.Not Builder.HasMedia)) = true :=
  ⟨C6_double_negation.1 (Builder.Word "cat") (by decide),
   C6_double_negation.2.2.1 (Builder.Not Builder.HasMedia) (by decide)⟩

/-- C7: negation preserves validity. -/
theorem C7_not_preserves_valid : ∀ q : Query, (Builder.Not q).valid = q.valid := by
  intro q
  cases q <;> simp [Builder.Not, newNotQuery, Query.valid]

/-- C8: `And()`/`Or()` with no arguments render to the empty string and
are invalid; with exactly one argument they return it unchanged, with no
wrapping node created. -/
theorem C8_arity_edges :
    (Builder.And []).string = "" ∧ (Builder.And []).valid = false ∧
    (Builder.Or []).string = "" ∧ (Builder.Or []).valid = false ∧
    (∀ q : Query, Builder.And [q] = q) ∧ (∀ q : Query, Builder.Or [q] = q) :=
  ⟨by rw [string_eval]; rfl, by decide, by rw [string_eval]; rfl, by decide,
   fun _ => rfl, fun _ => rfl⟩

/-- C9: `Word` trims surrounding white space, renders the trimmed text
wrapped in double quotes iff it contains a space or tab and bare
otherwise, and is valid in both cases. -/
theorem C9_word_render :
    (∀ s : String,
      (Builder.Word s).string =
        (if (trimSpace s).toList.any (fun c => c = ' ' || c = '\t')
         then "\"" ++ trimSpace s ++ "\"" else trimSpace s) ∧
      (Builder.Word s).valid = true) ∧
    (Builder.Word "cat").string = "cat" ∧
    (Builder.Word "you are here").string = "\"you are here\"" := by
  refine ⟨fun s => ⟨?_, ?_⟩, by rw [string_eval]; rfl, by rw [string_eval]; rfl⟩
  · show (newWord s).string = _
    simp only [newWord]
    split
    · rw [string_quoted, empty_str_append]
    · rw [string_solo]
  · show (newWord s).valid = true
    simp only [newWord]
    split
    · rfl
    · rfl

/-- C10: a `Word` built from an empty or all-whitespace string renders as
the empty string yet is valid, and a conjunction of such words passes the
validator while rendering to separators only. -/
theorem C10_whitespace_word :
    (∀ s : String, s.toList.all isGoSpace = true →
      (Builder.Word s).string = "" ∧ (Builder.Word s).valid = true) ∧
    (Builder.And [Builder.Word " ", Builder.Word "\t"]).valid = true ∧
    (Builder.And [Builder.Word " ", Builder.Word "\t"]).string = " " := by
  refine ⟨fun s h => ?_, by decide, by rw [string_eval]; rfl⟩
  have ht : trimSpace s = "" := by
    have h1 : List.dropWhile isGoSpace s.toList = [] :=
      List.dropWhile_eq_nil_iff.mpr (fun x hx => by
        simpa using List.all_eq_true.mp h x hx)
    show String.mk (((s.toList.dropWhile isGoSpace).reverse.dropWhile
      isGoSpace).reverse) = ""
    rw [h1]
    rfl
  show (newWord s).string = "" ∧ (newWord s).valid = true
  simp only [newWord, ht]
  exact ⟨string_solo "", rfl⟩

/-- C10 witness: the theorem applied to a concrete all-whitespace string. -/
theorem C10_witness :
    ("  ".toList.all isGoSpace = true) ∧
    ((Builder.Word "  ").string = "" ∧ (Builder.Word "  ").valid = true) :=
  ⟨by decide, C10_whitespace_word.1 "  " (by decide)⟩
